import Mathlib

/-!
Verification of the collection-and-annotation pipeline (`src/main.py`).

The Python source is shallowly embedded: pure helpers become Lean functions,
the stateful crawl/annotation loops become explicit state passing over a
state structure, HTTP traffic becomes an explicit environment of responses,
and code that can raise becomes `Except`-valued.  Machine integers do not
occur (all numeric fields are unbounded in Python), so `Nat`/`ℚ` are used
directly.
-/

/-! ### Text normalizer (`clean_comment`, main.py lines 39-44)

Python's `str.replace` replaces every non-overlapping occurrence of the
pattern, scanning left to right.  Each of the three concrete replacements
performed by `clean_comment` is embedded as a structurally recursive scan
over the character list.  -/

/-- Left-to-right scan replacing every occurrence of `"<br>"` by `"\n"`,
embedding `comment.replace("<br>", "\n")`. -/
def replBr : List Char → List Char
  | '<' :: 'b' :: 'r' :: '>' :: s => '\n' :: replBr s
  | c :: s => c :: replBr s
  | [] => []

/-- Left-to-right scan replacing every occurrence of `"&gt;"` by `">"`,
embedding `text.replace("&gt;", ">")`. -/
def replGt : List Char → List Char
  | '&' :: 'g' :: 't' :: ';' :: s => '>' :: replGt s
  | c :: s => c :: replGt s
  | [] => []

/-- Left-to-right scan replacing every occurrence of `"&quot;"` by `"\""`,
embedding `text.replace("&quot;", '"')`. -/
def replQuot : List Char → List Char
  | '&' :: 'q' :: 'u' :: 'o' :: 't' :: ';' :: s => '"' :: replQuot s
  | c :: s => c :: replQuot s
  | [] => []

/-- `clean_comment` (main.py lines 39-44).  `None` and `""` are both falsy in
Python, so both yield `""`; otherwise the three replacements are applied in
the order of the source. -/
def clean_comment : Option String → String
  | none => ""
  | some s => if s = "" then "" else ⟨replQuot (replGt (replBr s.data))⟩

/-! ### Catalog/thread crawler (`collect_posts`, main.py lines 54-97)

The network is embedded as an environment giving, for the `n`-th
`fetch_catalog` call, either a catalog (a list of pages, each a list of
thread ids) or `none` (the request raised), and for the `n`-th
`fetch_thread` call either a post list or `none`.  The unbounded
`while collected < limit` loop is run for a given finite number of catalog
passes (`fuel`): every finite execution prefix of the source is an instance.
The state additionally records, as traces, the post ids examined by the
dedup loop and the thread ids fetched; the RAW_FILE, opened in append mode
by `save_posts`, is the `stream` field, whose initial value is the
already-persisted content. -/

/-- A post of a thread response: fields `no`, `time`, optional `com`. -/
structure Post where
  no : Nat
  time : Nat
  com : Option String
deriving DecidableEq

/-- A raw Post Record as written to RAW_FILE (main.py lines 73-82);
`metadata` carries only constants and wall-clock time and is omitted. -/
structure Record where
  thread_id : Nat
  post_id : Nat
  timestamp : Nat
  comment : String
deriving DecidableEq

/-- Responses of the source service: the `n`-th catalog fetch and the `n`-th
thread fetch; `none` models the request raising. -/
structure CrawlEnv where
  catalog : Nat → Option (List (List Nat))
  thread : Nat → Option (List Post)

/-- Crawler state: `seen` is `seen_posts`, `collected` the counter,
`stream` the content of RAW_FILE, `examined` the trace of post ids reached
by the inner loop, `fetched` the trace of thread ids passed to
`fetch_thread`, `tcalls`/`ccalls` the call counters. -/
structure CState where
  seen : List Nat
  collected : Nat
  stream : List Record
  examined : List Nat
  fetched : List Nat
  tcalls : Nat
  ccalls : Nat
deriving DecidableEq

/-- The record built at main.py lines 73-82 (`post.get("com", "")` defaults a
missing comment to `""` before `clean_comment`). -/
def mkRecord (tid : Nat) (p : Post) : Record :=
  { thread_id := tid
    post_id := p.no
    timestamp := p.time
    comment := clean_comment (some (p.com.getD "")) }

/-- The inner `for post in thread_data["posts"]` loop (main.py lines 66-86):
skip seen ids, otherwise record, and break once `collected >= limit` —
checked only after appending. -/
def emitPosts (limit tid : Nat) : List Post → CState → CState
  | [], st => st
  | p :: rest, st =>
    if p.no ∈ st.seen then
      emitPosts limit tid rest { st with examined := st.examined ++ [p.no] }
    else
      let st' : CState :=
        { st with
          seen := p.no :: st.seen
          collected := st.collected + 1
          stream := st.stream ++ [mkRecord tid p]
          examined := st.examined ++ [p.no] }
      if limit ≤ st'.collected then st' else emitPosts limit tid rest st'

/-- The `for thread in page["threads"]` loop (main.py lines 62-90): each
thread is fetched; a failed fetch is caught and the loop continues.  The
source has no limit check at this level. -/
def runThreads (env : CrawlEnv) (limit : Nat) : List Nat → CState → CState
  | [], st => st
  | tid :: rest, st =>
    let st1 : CState := { st with tcalls := st.tcalls + 1, fetched := st.fetched ++ [tid] }
    match env.thread st.tcalls with
    | none => runThreads env limit rest st1
    | some posts => runThreads env limit rest (emitPosts limit tid posts st1)

/-- The `for page in catalog` loop (main.py lines 61-92), with its
`if collected >= limit: break` after each page's threads. -/
def runPages (env : CrawlEnv) (limit : Nat) : List (List Nat) → CState → CState
  | [], st => st
  | pg :: rest, st =>
    let st' := runThreads env limit pg st
    if limit ≤ st'.collected then st' else runPages env limit rest st'

/-- The `while collected < limit` loop (main.py lines 58-95), run for at most
`fuel` catalog passes; a failed catalog fetch is caught and the loop
retries. -/
def collectLoop (env : CrawlEnv) (limit : Nat) : Nat → CState → CState
  | 0, st => st
  | fuel + 1, st =>
    if st.collected < limit then
      match env.catalog st.ccalls with
      | none => collectLoop env limit fuel { st with ccalls := st.ccalls + 1 }
      | some pages =>
          collectLoop env limit fuel (runPages env limit pages { st with ccalls := st.ccalls + 1 })
    else st

/-- Initial crawler state: `seen_posts = set()`, `collected = 0`
(main.py lines 55-56); RAW_FILE already holds `old`. -/
def initState (old : List Record) : CState :=
  { seen := [], collected := 0, stream := old, examined := [], fetched := []
    tcalls := 0, ccalls := 0 }

/-- `collect_posts(limit)` (main.py lines 54-97) over an environment of
responses, executed for `fuel` catalog passes, with `old` the records
already persisted in RAW_FILE. -/
def collect_posts (old : List Record) (env : CrawlEnv) (limit fuel : Nat) : CState :=
  collectLoop env limit fuel (initState old)

/-- One pass of first-seen deduplication: the emitted ids and the final seen
list, for a given list of examined ids and initial seen list. -/
def fsStep : List Nat → List Nat → List Nat × List Nat
  | [], seen => ([], seen)
  | x :: xs, seen =>
    if x ∈ seen then fsStep xs seen
    else
      let r := fsStep xs (x :: seen)
      (x :: r.1, r.2)

/-- Stated from the spec's words ("the raw stream contains each `post_id`
exactly once, in first-seen order"): keep the first occurrence of each id,
in order of first appearance.  Compared against the crawler's stream. -/
def specFirstSeenDedup (delivered : List Nat) : List Nat :=
  (fsStep delivered []).1

/-! ### Rate-limited classifier calls (`analyze_openai` lines 102-118,
`analyze_perspective` lines 123-139)

Each HTTP call's outcome is either a response with a status code and a
parsed body (bodies are opaque; embedded as `Nat`) or a network-level
exception (`netErr`).  `analyze_openai`'s `requests.post` is *not* inside a
`try`, so a `netErr` outcome propagates: its embedding returns
`Except.error ()` in that case.  The jitter of `random.uniform(0, 1)` is an
arbitrary function `Nat → ℚ`; the slept delays are returned as a trace,
together with the number of HTTP calls made. -/

/-- Outcome of one outbound HTTP call. -/
inductive CallOutcome where
  | netErr : CallOutcome
  | resp : Nat → Nat → CallOutcome
deriving DecidableEq

instance {ε α : Type} [DecidableEq ε] [DecidableEq α] : DecidableEq (Except ε α)
  | .ok a, .ok b =>
    if h : a = b then .isTrue (by rw [h]) else .isFalse (by intro hc; cases hc; exact h rfl)
  | .ok _, .error _ => .isFalse (by intro hc; cases hc)
  | .error _, .ok _ => .isFalse (by intro hc; cases hc)
  | .error e, .error e' =>
    if h : e = e' then .isTrue (by rw [h]) else .isFalse (by intro hc; cases hc; exact h rfl)

/-- Result of one `analyze_openai` call: the returned value (`Except.error`
when an uncaught exception escapes), the delays slept, and the number of
HTTP calls made. -/
structure OaiRun where
  result : Except Unit (Option Nat)
  delays : List ℚ
  attempts : Nat
deriving DecidableEq

/-- The `for attempt in range(max_retries)` loop of `analyze_openai`
(main.py lines 107-118): 200 returns the body, 429 sleeps
`2 ** attempt + random.uniform(0, 1)` and retries, any other status returns
`None`, and loop exhaustion returns `None`.  A `netErr` from
`requests.post` is uncaught. -/
def oaiLoop (responses : Nat → CallOutcome) (jitter : Nat → ℚ) :
    Nat → Nat → List ℚ → Nat → OaiRun
  | 0, _, ds, calls => ⟨.ok none, ds, calls⟩
  | r + 1, attempt, ds, calls =>
    match responses attempt with
    | .netErr => ⟨.error (), ds, calls + 1⟩
    | .resp 200 body => ⟨.ok (some body), ds, calls + 1⟩
    | .resp 429 _ =>
        oaiLoop responses jitter r (attempt + 1)
          (ds ++ [(2 : ℚ) ^ attempt + jitter attempt]) (calls + 1)
    | .resp _ _ => ⟨.ok none, ds, calls + 1⟩

/-- `analyze_openai(text, max_retries)` (main.py lines 102-118); the source's
default for `max_retries` is 5. -/
def analyze_openai (responses : Nat → CallOutcome) (jitter : Nat → ℚ)
    (max_retries : Nat) : OaiRun :=
  oaiLoop responses jitter max_retries 0 [] 0

/-- `analyze_perspective(text)` (main.py lines 123-139): the whole request is
inside `try`; 200 returns the body, any other status returns `None`, and
any exception returns `None`. -/
def analyze_perspective : CallOutcome → Option Nat
  | .netErr => none
  | .resp 200 body => some body
  | .resp _ _ => none

/-! ### Batched annotation pipeline (`analyze_posts_batched`, lines 144-185)

The input file is a list of lines, each either a well-formed record or
malformed (`json.loads` raises on it, which nothing catches: the embedding
returns `Except.error ()`).  The two classifiers are oracles from the text
sent to the verdict obtained (a null verdict is a contained failure).  The
output carries the result records in the order written, the texts sent to
each classifier as traces, and the sizes of the batches formed. -/

/-- Python `str.isspace` characters as matched by `str.strip()`. -/
def pyWhitespace (c : Char) : Bool :=
  c == ' ' || c == '\t' || c == '\n' || c == '\r' || c == '\x0b' || c == '\x0c'

/-- Drop leading Python whitespace from a character list. -/
def dropLeadWs : List Char → List Char
  | [] => []
  | c :: s => if pyWhitespace c then dropLeadWs s else c :: s

/-- Python `s.strip()`: whitespace removed from both ends. -/
def pyStrip (s : String) : String :=
  ⟨(dropLeadWs ((dropLeadWs s.data).reverse)).reverse⟩

/-- A well-formed persisted raw post as read back by `json.loads`. -/
structure RawPost where
  thread_id : Nat
  post_id : Nat
  timestamp : Nat
  comment : String
deriving DecidableEq

/-- One line of the input file: a well-formed record, or a malformed line on
which `json.loads` raises. -/
inductive RawLine where
  | good : RawPost → RawLine
  | malformed : RawLine
deriving DecidableEq

/-- The reading loop (main.py lines 148-157): `enumerate` counter `i`,
`break` once `i >= limit`, `json.loads` raising on a malformed line,
`post.get("comment", "").strip()`, and skipping empty text.  Kept posts are
paired with their stripped text (`post["text"]`). -/
def readPosts (limit : Nat) : Nat → List RawLine → Except Unit (List (RawPost × String))
  | _, [] => .ok []
  | i, line :: rest =>
    if limit ≤ i then .ok []
    else
      match line with
      | .malformed => .error ()
      | .good p =>
        let text := pyStrip p.comment
        if text = "" then readPosts limit (i + 1) rest
        else
          match readPosts limit (i + 1) rest with
          | .error e => .error e
          | .ok ps => .ok ((p, text) :: ps)

/-- `posts[start:start+batch_size]` slicing (main.py line 161), with fuel
`l.length`; for `0 < bs` this is exact chunking. -/
def toBatchesGo (bs : Nat) : Nat → List α → List (List α)
  | 0, _ => []
  | _, [] => []
  | fuel + 1, l => l.take bs :: toBatchesGo bs fuel (l.drop bs)

/-- The batches formed by `range(0, len(posts), batch_size)`
(main.py line 160). -/
def toBatches (bs : Nat) (l : List α) : List (List α) :=
  toBatchesGo bs l.length l

/-- An Analysis Result Record (main.py lines 168-176); `analyzed_at` is
wall-clock time and is omitted. -/
structure AnalysisRecord where
  post_id : Nat
  thread_id : Nat
  timestamp : Nat
  text : String
  openai : Option Nat
  perspective : Option Nat
deriving DecidableEq

/-- The per-post body of the batch loop (main.py lines 164-177): both
classifiers are called on `post["text"]` and one record is written with
both verdicts side by side. -/
def analyzeStep (oa pr : String → Option Nat) (p : RawPost × String) : AnalysisRecord :=
  { post_id := p.1.post_id
    thread_id := p.1.thread_id
    timestamp := p.1.timestamp
    text := p.2
    openai := oa p.2
    perspective := pr p.2 }

/-- Output of one `analyze_posts_batched` run: records written in order,
texts sent to each classifier in order, and the batch sizes. -/
structure AnalysisOutput where
  results : List AnalysisRecord
  oaCalls : List String
  prCalls : List String
  batchSizes : List Nat
deriving DecidableEq

/-- `analyze_posts_batched(input_file, output_file, limit, batch_size)`
(main.py lines 144-185), parameterized by the two classifier oracles. -/
def analyze_posts_batched (oa pr : String → Option Nat) (limit batch_size : Nat)
    (input : List RawLine) : Except Unit AnalysisOutput :=
  match readPosts limit 0 input with
  | .error e => .error e
  | .ok posts =>
    let batches := toBatches batch_size posts
    .ok { results := (batches.map (fun b => b.map (analyzeStep oa pr))).flatten
          oaCalls := (batches.map (fun b => b.map (fun p => p.2))).flatten
          prCalls := (batches.map (fun b => b.map (fun p => p.2))).flatten
          batchSizes := batches.map List.length }

/-- The post id kept from one input line by the reading loop: `none` for a
malformed line or one whose stripped comment is empty. -/
def keptId : RawLine → Option Nat
  | .good p => if pyStrip p.comment = "" then none else some p.post_id
  | .malformed => none
/-- Crawler loop invariant: the stream is the persisted records followed by
this run's appends, whose post ids and the seen list are exactly one
first-seen-dedup pass over the examined ids. -/
def CInv (old : List Record) (st : CState) : Prop :=
  ∃ new, st.stream = old ++ new ∧ fsStep st.examined [] = (new.map Record.post_id, st.seen)

/-- Componentwise: `st'` is `st` with `old` prepended to its stream. -/
def StreamSim (old : List Record) (st st' : CState) : Prop :=
  st'.seen = st.seen ∧ st'.collected = st.collected ∧ st'.stream = old ++ st.stream ∧
  st'.examined = st.examined ∧ st'.fetched = st.fetched ∧ st'.tcalls = st.tcalls ∧
  st'.ccalls = st.ccalls

/-! ### Concrete instances used in counterexamples and witnesses -/

/-- One catalog page with threads 1 and 2; thread 1 returns three posts,
thread 2 one post. -/
def envOver : CrawlEnv :=
  { catalog := fun n => if n = 0 then some [[1, 2]] else none
    thread := fun n =>
      if n = 0 then some [⟨11, 0, none⟩, ⟨12, 0, none⟩, ⟨13, 0, none⟩]
      else if n = 1 then some [⟨21, 0, none⟩] else none }

/-- One catalog page with one thread whose single post has id 5. -/
def envRerun : CrawlEnv :=
  { catalog := fun n => if n = 0 then some [[1]] else none
    thread := fun n => if n = 0 then some [⟨5, 0, none⟩] else none }

/-- A persisted raw stream already holding a record with post id 5. -/
def oldRerun : List Record := [⟨1, 5, 0, ""⟩]

/-- One thread delivering the post id sequence 7, 8, 7 (a repeat). -/
def envDup : CrawlEnv :=
  { catalog := fun n => if n = 0 then some [[1]] else none
    thread := fun n => if n = 0 then some [⟨7, 0, none⟩, ⟨8, 0, none⟩, ⟨7, 1, none⟩] else none }

/-- Three rate-limit responses, then success with body 7. -/
def respW : Nat → CallOutcome := fun k => if k < 3 then .resp 429 0 else .resp 200 7

/-- Constant jitter of one half. -/
def jitW : Nat → ℚ := fun _ => 1 / 2

/-- Every call answers with HTTP 500. -/
def resp500 : Nat → CallOutcome := fun _ => .resp 500 0

/-- A classifier oracle that always fails (null verdict). -/
def oaNone : String → Option Nat := fun _ => none

/-- A classifier oracle that always returns verdict 9. -/
def prNine : String → Option Nat := fun _ => some 9


/-! ### Helper lemmas: normalizer -/

/-- `replBr` rewrites a leading `"<br>"` to a newline. -/
theorem replBr_pat (s : List Char) : replBr ('<' :: 'b' :: 'r' :: '>' :: s) = '\n' :: replBr s := by
  simp [replBr]

/-- `replBr` keeps a head character that does not start an occurrence. -/
theorem replBr_cons_ne (c : Char) (s : List Char)
    (h : ∀ t, c :: s ≠ '<' :: 'b' :: 'r' :: '>' :: t) :
    replBr (c :: s) = c :: replBr s := by
  rw [replBr.eq_def]
  split
  · rename_i t heq
    exact absurd heq (h t)
  · rename_i c2 s2 hne heq
    injection heq with e1 e2
    subst e1; subst e2
    rfl
  · rename_i heq
    cases heq

/-- Every occurrence of `"<br>"`, wherever it sits, becomes a newline: the
scan commutes with splitting the input at an occurrence.  (`"<br>"` has no
border, so an occurrence can never straddle the split.) -/
theorem replBr_append_pat (a b : List Char) :
    replBr (a ++ '<' :: 'b' :: 'r' :: '>' :: b) = replBr a ++ '\n' :: replBr b := by
  induction a using replBr.induct with
  | case1 s ih =>
      rw [List.cons_append, List.cons_append, List.cons_append, List.cons_append,
        replBr_pat, replBr_pat, ih]
      simp
  | case2 c s h ih =>
      match s, h with
      | [], h =>
          rw [List.cons_append, List.nil_append, replBr_cons_ne, replBr_pat,
            replBr_cons_ne _ [] (by intro t ht; simp at ht)]
          · simp [replBr]
          · intro t ht
            injection ht with e1 e2
            injection e2 with e3 e4
            exact absurd e3 (by decide)
      | [c1], h =>
          rw [List.cons_append, List.cons_append, List.nil_append,
            replBr_cons_ne c _ (by
              intro t ht
              injection ht with e1 e2
              injection e2 with e3 e4
              injection e4 with e5 e6
              exact absurd e5 (by decide)),
            replBr_cons_ne c1 _ (by
              intro t ht
              injection ht with e1 e2
              injection e2 with e3 e4
              exact absurd e3 (by decide)),
            replBr_pat,
            replBr_cons_ne c [c1] (by intro t ht; simp at ht),
            replBr_cons_ne c1 [] (by intro t ht; simp at ht)]
          simp [replBr]
      | [c1, c2], h =>
          rw [List.cons_append, List.cons_append, List.cons_append, List.nil_append,
            replBr_cons_ne c _ (by
              intro t ht
              injection ht with e1 e2
              injection e2 with e3 e4
              injection e4 with e5 e6
              injection e6 with e7 e8
              exact absurd e7 (by decide)),
            replBr_cons_ne c1 _ (by
              intro t ht
              injection ht with e1 e2
              injection e2 with e3 e4
              injection e4 with e5 e6
              exact absurd e5 (by decide)),
            replBr_cons_ne c2 _ (by
              intro t ht
              injection ht with e1 e2
              injection e2 with e3 e4
              exact absurd e3 (by decide)),
            replBr_pat,
            replBr_cons_ne c [c1, c2] (by intro t ht; simp at ht),
            replBr_cons_ne c1 [c2] (by intro t ht; simp at ht),
            replBr_cons_ne c2 [] (by intro t ht; simp at ht)]
          simp [replBr]
      | c1 :: c2 :: c3 :: t, h =>
          have side1 : ∀ u, c :: c1 :: c2 :: c3 :: (t ++ '<' :: 'b' :: 'r' :: '>' :: b) ≠
              '<' :: 'b' :: 'r' :: '>' :: u := by
            intro u hu
            injection hu with e1 e2
            injection e2 with e3 e4
            injection e4 with e5 e6
            injection e6 with e7 e8
            exact h t e1 (by rw [e3, e5, e7])
          have side2 : ∀ u, c :: c1 :: c2 :: c3 :: t ≠ '<' :: 'b' :: 'r' :: '>' :: u := by
            intro u hu
            injection hu with e1 e2
            injection e2 with e3 e4
            injection e4 with e5 e6
            injection e6 with e7 e8
            exact h u e1 (by rw [e3, e5, e7, e8])
          have harr : (c1 :: c2 :: c3 :: t) ++ '<' :: 'b' :: 'r' :: '>' :: b =
              c1 :: c2 :: c3 :: (t ++ '<' :: 'b' :: 'r' :: '>' :: b) := by simp
          rw [List.cons_append, harr, replBr_cons_ne c _ side1, replBr_cons_ne c _ side2, ← harr, ih]
          simp
  | case3 => simp [replBr_pat, replBr]

/-! ### Helper lemmas: first-seen deduplication and the crawler invariant -/

/-- `fsStep` splits over list concatenation, threading the seen list. -/
theorem fsStep_append (E F A : List Nat) :
    fsStep (E ++ F) A =
      ((fsStep E A).1 ++ (fsStep F (fsStep E A).2).1, (fsStep F (fsStep E A).2).2) := by
  induction E generalizing A with
  | nil => simp [fsStep]
  | cons x xs ih =>
      by_cases hx : x ∈ A
      · simp [fsStep, hx, ih]
      · simp [fsStep, hx, ih]

/-- The ids emitted by `fsStep` are distinct and disjoint from the initial
seen list. -/
theorem fsStep_nodup (E A : List Nat) :
    (fsStep E A).1.Nodup ∧ ∀ x ∈ (fsStep E A).1, x ∉ A := by
  induction E generalizing A with
  | nil => simp [fsStep]
  | cons x xs ih =>
      by_cases hx : x ∈ A
      · simpa [fsStep, hx] using ih A
      · obtain ⟨h1, h2⟩ := ih (x :: A)
        refine ⟨?_, ?_⟩
        · simp only [fsStep, if_neg hx]
          exact List.nodup_cons.mpr ⟨fun hm => (h2 x hm) (by simp), h1⟩
        · intro y hy
          simp only [fsStep, if_neg hx, List.mem_cons] at hy
          rcases hy with rfl | hy
          · exact hx
          · exact fun hA => (h2 y hy) (List.mem_cons_of_mem _ hA)

/-- Every examined id is emitted by `fsStep` or was already seen. -/
theorem fsStep_mem (E A : List Nat) (x : Nat) (hx : x ∈ E) : x ∈ (fsStep E A).1 ∨ x ∈ A := by
  induction E generalizing A with
  | nil => cases hx
  | cons y ys ih =>
      by_cases hy : y ∈ A
      · rcases List.mem_cons.mp hx with rfl | hx2
        · simp [fsStep, hy]
        · simpa [fsStep, hy] using ih A hx2
      · rcases List.mem_cons.mp hx with rfl | hx2
        · simp [fsStep, hy]
        · rcases ih (y :: A) hx2 with h | h
          · left; simp [fsStep, hy]; right; exact h
          · rcases List.mem_cons.mp h with rfl | h2
            · left; simp [fsStep, hy]
            · right; exact h2

theorem emitPosts_inv (limit tid : Nat) (posts : List Post) (old : List Record) :
    ∀ st, CInv old st → CInv old (emitPosts limit tid posts st) := by
  induction posts with
  | nil => intro st h; simpa [emitPosts] using h
  | cons p rest ih =>
      intro st h
      obtain ⟨new, hs, hfs⟩ := h
      by_cases hseen : p.no ∈ st.seen
      · simp only [emitPosts, if_pos hseen]
        apply ih
        refine ⟨new, hs, ?_⟩
        rw [fsStep_append, hfs]
        simp [fsStep, hseen]
      · have hst' : CInv old
            { st with
              seen := p.no :: st.seen
              collected := st.collected + 1
              stream := st.stream ++ [mkRecord tid p]
              examined := st.examined ++ [p.no] } := by
          refine ⟨new ++ [mkRecord tid p], by simp [hs], ?_⟩
          rw [fsStep_append, hfs]
          simp [fsStep, hseen, mkRecord]
        simp only [emitPosts, if_neg hseen]
        by_cases hlim : limit ≤ st.collected + 1
        · simpa [hlim] using hst'
        · simp only [if_neg hlim]
          exact ih _ hst'

theorem runThreads_inv (env : CrawlEnv) (limit : Nat) (tids : List Nat) (old : List Record) :
    ∀ st, CInv old st → CInv old (runThreads env limit tids st) := by
  induction tids with
  | nil => intro st h; simpa [runThreads] using h
  | cons tid rest ih =>
      intro st h
      rw [runThreads]
      have h1 : CInv old { st with tcalls := st.tcalls + 1, fetched := st.fetched ++ [tid] } := by
        obtain ⟨new, hs, hfs⟩ := h
        exact ⟨new, hs, hfs⟩
      cases env.thread st.tcalls with
      | none => exact ih _ h1
      | some posts => exact ih _ (emitPosts_inv _ _ _ _ _ h1)

theorem runPages_inv (env : CrawlEnv) (limit : Nat) (pages : List (List Nat)) (old : List Record) :
    ∀ st, CInv old st → CInv old (runPages env limit pages st) := by
  induction pages with
  | nil => intro st h; simpa [runPages] using h
  | cons pg rest ih =>
      intro st h
      rw [runPages]
      have h1 := runThreads_inv env limit pg old st h
      by_cases hlim : limit ≤ (runThreads env limit pg st).collected
      · simpa [hlim] using h1
      · simp only [if_neg hlim]
        exact ih _ h1

theorem collectLoop_inv (env : CrawlEnv) (limit : Nat) (old : List Record) :
    ∀ fuel st, CInv old st → CInv old (collectLoop env limit fuel st) := by
  intro fuel
  induction fuel with
  | zero => intro st h; simpa [collectLoop] using h
  | succ n ih =>
      intro st h
      rw [collectLoop]
      by_cases hc : st.collected < limit
      · simp only [if_pos hc]
        have h1 : CInv old { st with ccalls := st.ccalls + 1 } := by
          obtain ⟨new, hs, hfs⟩ := h
          exact ⟨new, hs, hfs⟩
        cases env.catalog st.ccalls with
        | none => exact ih _ h1
        | some pages => exact ih _ (runPages_inv env limit pages old _ h1)
      · simpa [hc] using h

/-- The invariant holds of every finished run. -/
theorem collect_posts_inv (old : List Record) (env : CrawlEnv) (limit fuel : Nat) :
    CInv old (collect_posts old env limit fuel) := by
  apply collectLoop_inv
  exact ⟨[], by simp [initState], by simp [initState, fsStep]⟩

/-! ### Helper lemmas: independence of the run from the persisted stream -/

theorem emitPosts_sim (limit tid : Nat) (posts : List Post) (old : List Record) :
    ∀ st st', StreamSim old st st' →
      StreamSim old (emitPosts limit tid posts st) (emitPosts limit tid posts st') := by
  induction posts with
  | nil => intro st st' h; simpa [emitPosts] using h
  | cons p rest ih =>
      intro st st' h
      obtain ⟨h1, h2, h3, h4, h5, h6, h7⟩ := h
      rw [emitPosts, emitPosts, h1, h2]
      by_cases hseen : p.no ∈ st.seen
      · rw [if_pos hseen, if_pos hseen]
        exact ih _ _ ⟨by simp [h1], by simp [h2], by simp [h3], by simp [h4], by simp [h5],
          by simp [h6], by simp [h7]⟩
      · rw [if_neg hseen, if_neg hseen]
        by_cases hlim : limit ≤ st.collected + 1
        · rw [if_pos hlim, if_pos hlim]
          exact ⟨by simp [h1], by simp [h2], by simp [h3], by simp [h4], by simp [h5],
            by simp [h6], by simp [h7]⟩
        · rw [if_neg hlim, if_neg hlim]
          exact ih _ _ ⟨by simp [h1], by simp [h2], by simp [h3], by simp [h4], by simp [h5],
            by simp [h6], by simp [h7]⟩

theorem runThreads_sim (env : CrawlEnv) (limit : Nat) (tids : List Nat) (old : List Record) :
    ∀ st st', StreamSim old st st' →
      StreamSim old (runThreads env limit tids st) (runThreads env limit tids st') := by
  induction tids with
  | nil => intro st st' h; simpa [runThreads] using h
  | cons tid rest ih =>
      intro st st' h
      obtain ⟨h1, h2, h3, h4, h5, h6, h7⟩ := h
      rw [runThreads, runThreads, h6]
      cases env.thread st.tcalls with
      | none =>
          exact ih _ _ ⟨by simp [h1], by simp [h2], by simp [h3], by simp [h4], by simp [h5],
            by simp [h6], by simp [h7]⟩
      | some posts =>
          exact ih _ _ (emitPosts_sim _ _ _ _ _ _
            ⟨by simp [h1], by simp [h2], by simp [h3], by simp [h4], by simp [h5],
              by simp [h6], by simp [h7]⟩)

theorem runPages_sim (env : CrawlEnv) (limit : Nat) (pages : List (List Nat)) (old : List Record) :
    ∀ st st', StreamSim old st st' →
      StreamSim old (runPages env limit pages st) (runPages env limit pages st') := by
  induction pages with
  | nil => intro st st' h; simpa [runPages] using h
  | cons pg rest ih =>
      intro st st' h
      have h' := runThreads_sim env limit pg old st st' h
      rw [runPages, runPages, h'.2.1]
      by_cases hlim : limit ≤ (runThreads env limit pg st).collected
      · rw [if_pos hlim, if_pos hlim]
        exact h'
      · rw [if_neg hlim, if_neg hlim]
        exact ih _ _ h'

theorem collectLoop_sim (env : CrawlEnv) (limit : Nat) (old : List Record) :
    ∀ fuel st st', StreamSim old st st' →
      StreamSim old (collectLoop env limit fuel st) (collectLoop env limit fuel st') := by
  intro fuel
  induction fuel with
  | zero => intro st st' h; simpa [collectLoop] using h
  | succ n ih =>
      intro st st' h
      obtain ⟨h1, h2, h3, h4, h5, h6, h7⟩ := h
      rw [collectLoop, collectLoop, h2, h7]
      by_cases hc : st.collected < limit
      · rw [if_pos hc, if_pos hc]
        cases env.catalog st.ccalls with
        | none =>
            exact ih _ _ ⟨by simp [h1], by simp [h2], by simp [h3], by simp [h4], by simp [h5],
              by simp [h6], by simp [h7]⟩
        | some pages =>
            exact ih _ _ (runPages_sim env limit pages old _ _
              ⟨by simp [h1], by simp [h2], by simp [h3], by simp [h4], by simp [h5],
                by simp [h6], by simp [h7]⟩)
      · rw [if_neg hc, if_neg hc]
        exact ⟨h1, h2, h3, h4, h5, h6, h7⟩

theorem cstate_eq_of_fields (st st' : CState) (h1 : st.seen = st'.seen)
    (h2 : st.collected = st'.collected) (h3 : st.stream = st'.stream)
    (h4 : st.examined = st'.examined) (h5 : st.fetched = st'.fetched)
    (h6 : st.tcalls = st'.tcalls) (h7 : st.ccalls = st'.ccalls) : st = st' := by
  cases st; cases st'; simp_all

theorem collect_posts_sim (old : List Record) (env : CrawlEnv) (limit fuel : Nat) :
    StreamSim old (collect_posts [] env limit fuel) (collect_posts old env limit fuel) := by
  apply collectLoop_sim
  exact ⟨rfl, rfl, by simp [initState], rfl, rfl, rfl, rfl⟩

/-! ### Helper lemmas: retry loop and annotation pipeline -/

/-- The retry loop makes at most `c + r` calls. -/
theorem oaiLoop_attempts_le (responses : Nat → CallOutcome) (jitter : Nat → ℚ) :
    ∀ (r a : Nat) (ds : List ℚ) (c : Nat), (oaiLoop responses jitter r a ds c).attempts ≤ c + r := by
  intro r
  induction r with
  | zero => intro a ds c; simp [oaiLoop]
  | succ n ih =>
      intro a ds c
      rw [oaiLoop]
      split
      · simp
      · simp
      · calc (oaiLoop responses jitter n (a + 1) _ (c + 1)).attempts ≤ (c + 1) + n := ih _ _ _
          _ ≤ c + (n + 1) := by omega
      · simp

theorem oai429_shift (responses : Nat → CallOutcome) (jitter : Nat → ℚ) :
    ∀ (m r a : Nat) (ds : List ℚ) (c : Nat),
      (∀ k, k < m → ∃ b, responses (a + k) = .resp 429 b) → m ≤ r →
      oaiLoop responses jitter r a ds c =
        oaiLoop responses jitter (r - m) (a + m)
          (ds ++ (List.range m).map (fun k => (2 : ℚ) ^ (a + k) + jitter (a + k))) (c + m) := by
  intro m
  induction m with
  | zero => intro r a ds c h hm; simp
  | succ n ih =>
      intro r a ds c h hm
      obtain ⟨b, hb⟩ := h 0 (Nat.succ_pos n)
      rw [Nat.add_zero] at hb
      rcases r with _ | r'
      · omega
      · rw [oaiLoop, hb]
        have hshift : ∀ k, k < n → ∃ b2, responses (a + 1 + k) = .resp 429 b2 := by
          intro k hk
          have := h (k + 1) (by omega)
          rwa [show a + (k + 1) = a + 1 + k by omega] at this
        rw [ih r' (a + 1) (ds ++ [(2 : ℚ) ^ a + jitter a]) (c + 1) hshift (by omega)]
        have e1 : r' + 1 - (n + 1) = r' - n := by omega
        have e2 : a + (n + 1) = a + 1 + n := by omega
        have e3 : c + (n + 1) = c + 1 + n := by omega
        have e4 : ds ++ (List.range (n + 1)).map (fun k => (2 : ℚ) ^ (a + k) + jitter (a + k)) =
            (ds ++ [(2 : ℚ) ^ a + jitter a]) ++
              (List.range n).map (fun k => (2 : ℚ) ^ (a + 1 + k) + jitter (a + 1 + k)) := by
          rw [List.range_succ_eq_map, List.map_cons, List.map_map, List.append_assoc]
          simp only [Nat.add_zero, List.singleton_append]
          congr 2
          apply List.map_congr_left
          intro k _
          simp [Function.comp]
          rw [show a + (k + 1) = a + 1 + k by omega]
        rw [e1, e2, e3, e4]

theorem readPosts_take (limit : Nat) : ∀ (input : List RawLine) (i : Nat),
    readPosts limit i input = readPosts limit i (input.take (limit - i)) := by
  intro input
  induction input with
  | nil => intro i; simp
  | cons l rest ih =>
      intro i
      by_cases hi : limit ≤ i
      · have h0 : limit - i = 0 := by omega
        rw [h0, List.take_zero]
        cases l with
        | malformed => rw [readPosts.eq_2, if_pos hi, readPosts.eq_1]
        | good p => rw [readPosts.eq_3, if_pos hi, readPosts.eq_1]
      · have h1 : limit - i = (limit - (i + 1)) + 1 := by omega
        rw [h1, List.take_succ_cons]
        cases l with
        | malformed => rw [readPosts.eq_2, readPosts.eq_2, if_neg hi]
        | good p => rw [readPosts.eq_3, readPosts.eq_3, if_neg hi, ← ih (i + 1), if_neg hi]

theorem readPosts_ok (limit : Nat) : ∀ (input : List RawLine) (i : Nat) (ps : List (RawPost × String)),
    readPosts limit i input = .ok ps →
      (∀ pr ∈ ps, pr.2 = pyStrip pr.1.comment ∧ pr.2 ≠ "") ∧
      ps.map (fun pr => pr.1.post_id) = (input.take (limit - i)).filterMap keptId := by
  intro input
  induction input with
  | nil =>
      intro i ps h
      injection h with h
      subst h
      simp
  | cons l rest ih =>
      intro i ps h
      by_cases hi : limit ≤ i
      · have h0 : limit - i = 0 := by omega
        rw [h0, List.take_zero]
        cases l with
        | malformed =>
            rw [readPosts.eq_2, if_pos hi] at h
            injection h with h
            subst h
            simp
        | good p =>
            rw [readPosts.eq_3, if_pos hi] at h
            injection h with h
            subst h
            simp
      · have h1 : limit - i = (limit - (i + 1)) + 1 := by omega
        cases l with
        | malformed =>
            rw [readPosts.eq_2, if_neg hi] at h
            cases h
        | good p =>
            simp only [readPosts.eq_3, if_neg hi] at h
            rw [h1, List.take_succ_cons]
            by_cases hstrip : pyStrip p.comment = ""
            · rw [if_pos hstrip] at h
              obtain ⟨hitems, hmap⟩ := ih (i + 1) ps h
              refine ⟨hitems, ?_⟩
              simp only [List.filterMap_cons, keptId, if_pos hstrip]
              exact hmap
            · rw [if_neg hstrip] at h
              cases hrec : readPosts limit (i + 1) rest with
              | error e => rw [hrec] at h; cases h
              | ok tail =>
                  rw [hrec] at h
                  injection h with h
                  subst h
                  obtain ⟨hitems, hmap⟩ := ih (i + 1) tail hrec
                  refine ⟨?_, ?_⟩
                  · intro pr hpr
                    rcases List.mem_cons.mp hpr with rfl | hpr2
                    · exact ⟨rfl, hstrip⟩
                    · exact hitems pr hpr2
                  · simp only [List.filterMap_cons, keptId, if_neg hstrip, List.map_cons]
                    rw [hmap]

theorem readPosts_malformed (limit : Nat) : ∀ (pre : List RawLine) (i : Nat) (rest : List RawLine),
    (∀ l ∈ pre, l ≠ RawLine.malformed) → i + pre.length < limit →
    readPosts limit i (pre ++ RawLine.malformed :: rest) = .error () := by
  intro pre
  induction pre with
  | nil =>
      intro i rest _ hlen
      rw [List.nil_append, readPosts.eq_2, if_neg (by omega)]
  | cons l pre' ih =>
      intro i rest hml hlen
      rw [List.cons_append]
      cases l with
      | malformed => exact absurd rfl (hml _ (List.mem_cons_self _ _))
      | good p =>
          have hlen' : i < limit := by simp at hlen; omega
          have hrec := ih (i + 1) rest (fun l hl => hml l (List.mem_cons_of_mem _ hl))
            (by simp at hlen ⊢; omega)
          simp only [readPosts.eq_3, if_neg (by omega : ¬ limit ≤ i)]
          by_cases hstrip : pyStrip p.comment = ""
          · rw [if_pos hstrip]
            exact hrec
          · rw [if_neg hstrip, hrec]

theorem toBatchesGo_nil (bs fuel : Nat) : toBatchesGo bs fuel ([] : List α) = [] := by
  cases fuel <;> rfl

theorem toBatchesGo_cons (bs n : Nat) (x : α) (xs : List α) :
    toBatchesGo bs (n + 1) (x :: xs) =
      (x :: xs).take bs :: toBatchesGo bs n ((x :: xs).drop bs) := rfl

theorem toBatchesGo_flatten (bs : Nat) (hbs : 0 < bs) :
    ∀ (fuel : Nat) (l : List α), l.length ≤ fuel → (toBatchesGo bs fuel l).flatten = l := by
  intro fuel
  induction fuel with
  | zero =>
      intro l hl
      have h0 : l = [] := List.length_eq_zero.mp (by omega)
      subst h0
      rfl
  | succ n ih =>
      intro l hl
      cases l with
      | nil => rfl
      | cons x xs =>
          rw [toBatchesGo_cons, List.flatten_cons, ih _ (by simp at hl ⊢; omega),
            List.take_append_drop]

theorem toBatchesGo_sizes_le (bs : Nat) :
    ∀ (fuel : Nat) (l : List α) (b : List α), b ∈ toBatchesGo bs fuel l → b.length ≤ bs := by
  intro fuel
  induction fuel with
  | zero => intro l b hb; simp [toBatchesGo] at hb
  | succ n ih =>
      intro l b hb
      cases l with
      | nil => rw [toBatchesGo_nil] at hb; cases hb
      | cons x xs =>
          rw [toBatchesGo_cons] at hb
          rcases List.mem_cons.mp hb with rfl | hb2
          · rw [List.length_take]
            omega
          · exact ih _ _ hb2

theorem toBatchesGo_sizes_eq (bs : Nat) (hbs : 0 < bs) :
    ∀ (fuel : Nat) (l : List α) (i : Nat), l.length ≤ fuel →
      i + 1 < (toBatchesGo bs fuel l).length →
      ((toBatchesGo bs fuel l).map List.length)[i]? = some bs := by
  intro fuel
  induction fuel with
  | zero => intro l i hl hi; simp [toBatchesGo] at hi
  | succ n ih =>
      intro l i hl hi
      cases l with
      | nil => rw [toBatchesGo_nil] at hi; simp at hi
      | cons x xs =>
          rw [toBatchesGo_cons] at hi ⊢
          cases i with
          | zero =>
              have hne : toBatchesGo bs n ((x :: xs).drop bs) ≠ [] := by
                intro hcon
                rw [List.length_cons, hcon] at hi
                simp at hi
              have hdrop : (x :: xs).drop bs ≠ [] := by
                intro hcon
                rw [hcon, toBatchesGo_nil] at hne
                exact hne rfl
              have hlen : bs < (x :: xs).length := by
                by_contra hcon
                exact hdrop (List.drop_eq_nil_of_le (by omega))
              simp only [List.map_cons, List.getElem?_cons_zero, List.length_take]
              congr 1
              omega
          | succ j =>
              simp only [List.map_cons, List.getElem?_cons_succ]
              exact ih _ j (by simp at hl ⊢; omega) (by simpa using hi)

theorem filterMap_length_countP (f : α → Option β) :
    ∀ l : List α, (l.filterMap f).length = l.countP (fun x => (f x).isSome) := by
  intro l
  induction l with
  | nil => rfl
  | cons x xs ih =>
      cases hf : f x with
      | none => simp [List.filterMap_cons, hf, List.countP_cons, ih]
      | some b => simp [List.filterMap_cons, hf, List.countP_cons, ih]

/-! ### Helper lemmas: behavior at and beyond the target count -/

/-- `collected` never decreases over the inner post loop. -/
theorem emitPosts_collected_mono (limit tid : Nat) (posts : List Post) :
    ∀ st : CState, st.collected ≤ (emitPosts limit tid posts st).collected := by
  induction posts with
  | nil => intro st; simp [emitPosts]
  | cons p rest ih =>
      intro st
      rw [emitPosts]
      by_cases hseen : p.no ∈ st.seen
      · rw [if_pos hseen]
        simpa using ih { st with examined := st.examined ++ [p.no] }
      · rw [if_neg hseen]
        by_cases hlim : limit ≤ st.collected + 1
        · rw [if_pos hlim]
          simp
        · rw [if_neg hlim]
          have h2 := ih { st with
            seen := p.no :: st.seen
            collected := st.collected + 1
            stream := st.stream ++ [mkRecord tid p]
            examined := st.examined ++ [p.no] }
          simp only at h2
          omega

theorem emitPosts_over_limit (limit tid : Nat) (posts : List Post) :
    ∀ st : CState, limit ≤ st.collected →
      (emitPosts limit tid posts st).stream.length ≤ st.stream.length + 1 := by
  induction posts with
  | nil => intro st _; simp [emitPosts]
  | cons p rest ih =>
      intro st h
      rw [emitPosts]
      by_cases hseen : p.no ∈ st.seen
      · rw [if_pos hseen]
        simpa using ih { st with examined := st.examined ++ [p.no] } h
      · rw [if_neg hseen, if_pos (by omega : limit ≤ st.collected + 1)]
        simp

theorem runThreads_over_limit (env : CrawlEnv) (limit : Nat) (tids : List Nat) :
    ∀ st : CState, limit ≤ st.collected →
      (runThreads env limit tids st).stream.length ≤ st.stream.length + tids.length := by
  induction tids with
  | nil => intro st _; simp [runThreads]
  | cons tid rest ih =>
      intro st h
      rw [runThreads]
      cases env.thread st.tcalls with
      | none =>
          have h2 := ih { st with tcalls := st.tcalls + 1, fetched := st.fetched ++ [tid] }
            (by simpa using h)
          simp only [List.length_cons] at h2 ⊢
          omega
      | some posts =>
          have hmono := emitPosts_collected_mono limit tid posts
            { st with tcalls := st.tcalls + 1, fetched := st.fetched ++ [tid] }
          simp only at hmono
          have hover := emitPosts_over_limit limit tid posts
            { st with tcalls := st.tcalls + 1, fetched := st.fetched ++ [tid] } (by simpa using h)
          simp only at hover
          have h2 := ih (emitPosts limit tid posts
            { st with tcalls := st.tcalls + 1, fetched := st.fetched ++ [tid] }) (by omega)
          simp only [List.length_cons] at h2 ⊢
          omega

/-- C1 (counterexample): with target 3, one catalog page holding threads 1 and 2
(thread 1 delivering three posts), the crawler still fetches thread 2 after the
target is reached and appends a fourth record: the raw stream gains 4 > 3
records and both threads are fetched. -/
theorem collect_overcollection_counterexample :
    (collect_posts [] envOver 3 1).stream.length = 4 ∧
    (collect_posts [] envOver 3 1).fetched = [1, 2] ∧
    (collect_posts [] envOver 3 1).collected = 4 :=
  ⟨by decide, by decide, by decide⟩

/-- C1 (amended): once the collected count reaches the target the outer loop
starts no further catalog pass and no further page is processed, but the
remaining threads of the current page are still fetched, each appending at
most one further record. -/
theorem collect_stop_behavior :
    (∀ (env : CrawlEnv) (limit fuel : Nat) (st : CState), limit ≤ st.collected →
        collectLoop env limit fuel st = st) ∧
    (∀ (env : CrawlEnv) (limit : Nat) (pg : List Nat) (rest : List (List Nat)) (st : CState),
        limit ≤ (runThreads env limit pg st).collected →
        runPages env limit (pg :: rest) st = runThreads env limit pg st) ∧
    (∀ (limit tid : Nat) (posts : List Post) (st : CState), limit ≤ st.collected →
        (emitPosts limit tid posts st).stream.length ≤ st.stream.length + 1) ∧
    (∀ (env : CrawlEnv) (limit : Nat) (tids : List Nat) (st : CState), limit ≤ st.collected →
        (runThreads env limit tids st).stream.length ≤ st.stream.length + tids.length) := by
  refine ⟨?_, ?_, ?_, ?_⟩
  · intro env limit fuel st h
    cases fuel with
    | zero => rfl
    | succ n => rw [collectLoop, if_neg (by omega)]
  · intro env limit pg rest st h
    rw [runPages, if_pos h]
  · intro limit tid posts st h
    exact emitPosts_over_limit limit tid posts st h
  · intro env limit tids st h
    exact runThreads_over_limit env limit tids st h

/-- Witness for the amended C1 statement at concrete inputs. -/
theorem collect_stop_behavior_witness :
    collectLoop envOver 3 5 ⟨[], 3, [], [], [], 0, 0⟩ = ⟨[], 3, [], [], [], 0, 0⟩ ∧
    runPages envOver 3 [[2]] ⟨[], 3, [], [], [], 0, 0⟩ =
      runThreads envOver 3 [2] ⟨[], 3, [], [], [], 0, 0⟩ ∧
    (emitPosts 3 9 [⟨7, 0, none⟩] ⟨[], 3, [], [], [], 0, 0⟩).stream.length ≤ 0 + 1 ∧
    (runThreads envOver 3 [1, 2] ⟨[], 3, [], [], [], 0, 0⟩).stream.length ≤ 0 + 2 := by
  refine ⟨collect_stop_behavior.1 envOver 3 5 _ (by decide), ?_, ?_, ?_⟩
  · have h := collect_stop_behavior.2.1 envOver 3 [2] [] ⟨[], 3, [], [], [], 0, 0⟩ (by decide)
    exact h
  · exact collect_stop_behavior.2.2.1 3 9 [⟨7, 0, none⟩] _ (by decide)
  · exact collect_stop_behavior.2.2.2 envOver 3 [1, 2] _ (by decide)

/-- C2 (counterexample): with a record of post id 5 already persisted and the
source delivering post 5 again, a re-run appends a duplicate: the dedup key
appears twice in the raw stream. -/
theorem collect_rerun_duplicate_counterexample :
    (collect_posts oldRerun envRerun 1 1).stream.map Record.post_id = [5, 5] ∧
    ¬ ((collect_posts oldRerun envRerun 1 1).stream.map Record.post_id).Nodup :=
  ⟨by decide, by decide⟩

/-- C2 (amended): `collect_posts` starts from an empty seen-set and never
reads the persisted stream: a run over a pre-populated RAW_FILE behaves
exactly as one over an empty file, with the old records merely sitting in
front of the appended ones — so a re-run can append duplicates of persisted
post ids. -/
theorem collect_rerun_ignores_persisted (old : List Record) (env : CrawlEnv) (limit fuel : Nat) :
    collect_posts old env limit fuel =
      { collect_posts [] env limit fuel with
        stream := old ++ (collect_posts [] env limit fuel).stream } := by
  obtain ⟨h1, h2, h3, h4, h5, h6, h7⟩ := collect_posts_sim old env limit fuel
  exact cstate_eq_of_fields _ _ h1 h2 h3 h4 h5 h6 h7

/-- C5: within one run (empty initial file), the post ids appended to the raw
stream are exactly one first-seen-deduplication pass over the ids the dedup
loop examined: distinct, in first-seen order, each examined id occurring
exactly once. -/
theorem collect_dedup_first_seen (env : CrawlEnv) (limit fuel : Nat) :
    ((collect_posts [] env limit fuel).stream.map Record.post_id =
        specFirstSeenDedup (collect_posts [] env limit fuel).examined) ∧
    ((collect_posts [] env limit fuel).stream.map Record.post_id).Nodup ∧
    (∀ pid ∈ (collect_posts [] env limit fuel).examined,
        ((collect_posts [] env limit fuel).stream.map Record.post_id).count pid = 1) := by
  obtain ⟨new, hs, hfs⟩ := collect_posts_inv [] env limit fuel
  rw [List.nil_append] at hs
  have hmap : (collect_posts [] env limit fuel).stream.map Record.post_id =
      (fsStep (collect_posts [] env limit fuel).examined []).1 := by
    rw [hs, hfs]
  have hnd := (fsStep_nodup (collect_posts [] env limit fuel).examined []).1
  refine ⟨by rw [hmap]; rfl, by rw [hmap]; exact hnd, ?_⟩
  intro pid hpid
  rcases fsStep_mem _ [] pid hpid with hm | hm
  · rw [hmap]
    exact List.count_eq_one_of_mem hnd hm
  · cases hm

/-- Witness for C5 at the repeating source 7, 8, 7. -/
theorem collect_dedup_first_seen_witness :
    7 ∈ (collect_posts [] envDup 5 1).examined ∧
    ((collect_posts [] envDup 5 1).stream.map Record.post_id).count 7 = 1 ∧
    (collect_posts [] envDup 5 1).examined = [7, 8, 7] ∧
    (collect_posts [] envDup 5 1).stream.map Record.post_id = [7, 8] :=
  ⟨by decide, (collect_dedup_first_seen envDup 5 1).2.2 7 (by decide), by decide, by decide⟩

/-! ### Claims on the classifier calls -/

/-- When no call raises at the network level, the retry loop always returns. -/
theorem oaiLoop_no_netErr (responses : Nat → CallOutcome) (jitter : Nat → ℚ)
    (hne : ∀ k, responses k ≠ .netErr) :
    ∀ (r a : Nat) (ds : List ℚ) (c : Nat),
      ∃ v, (oaiLoop responses jitter r a ds c).result = .ok v := by
  intro r
  induction r with
  | zero => intro a ds c; exact ⟨none, rfl⟩
  | succ n ih =>
      intro a ds c
      rw [oaiLoop]
      split
      · rename_i heq
        exact absurd heq (hne a)
      · rename_i body heq
        exact ⟨some body, rfl⟩
      · exact ih _ _ _
      · exact ⟨none, rfl⟩

/-- C4 (counterexample): a network-level exception during `analyze_openai`'s
HTTP request is not caught: it escapes the function (and would abort the
run). -/
theorem openai_netErr_uncaught_counterexample :
    (analyze_openai (fun _ => CallOutcome.netErr) (fun _ => 0) 5).result = .error () := rfl

/-- C4 (amended): HTTP-status failures are contained by `analyze_openai`
(null verdict), and `analyze_perspective` contains every failure including
network exceptions; but a network-level exception inside `analyze_openai`
propagates out of it. -/
theorem classifier_failure_containment (responses : Nat → CallOutcome) (jitter : Nat → ℚ)
    (max_retries : Nat) :
    ((∀ k, responses k ≠ .netErr) →
      ∃ v, (analyze_openai responses jitter max_retries).result = .ok v) ∧
    (∀ o : CallOutcome,
      analyze_perspective o = none ∨ ∃ b, o = .resp 200 b ∧ analyze_perspective o = some b) ∧
    (0 < max_retries →
      (analyze_openai (fun _ => CallOutcome.netErr) jitter max_retries).result = .error ()) := by
  refine ⟨?_, ?_, ?_⟩
  · intro hne
    exact oaiLoop_no_netErr responses jitter hne max_retries 0 [] 0
  · intro o
    cases o with
    | netErr => exact Or.inl rfl
    | resp code body =>
        rw [analyze_perspective.eq_def]
        split
        · exact Or.inl rfl
        · rename_i b heq
          injection heq with e1 e2
          exact Or.inr ⟨body, by rw [e1], by rw [e2]⟩
        · exact Or.inl rfl
  · intro hmr
    rcases max_retries with _ | t
    · omega
    · rfl

/-- Witness for the amended C4 statement at concrete inputs. -/
theorem classifier_failure_containment_witness :
    (analyze_openai resp500 (fun _ => 0) 5).result ≠ .error () ∧
    analyze_perspective CallOutcome.netErr = none ∧
    (analyze_openai (fun _ => CallOutcome.netErr) (fun _ => 0) 5).result = .error () := by
  refine ⟨?_, ?_, (classifier_failure_containment (fun _ => CallOutcome.netErr) (fun _ => 0) 5).2.2
    (by norm_num)⟩
  · obtain ⟨v, hv⟩ := (classifier_failure_containment resp500 (fun _ => 0) 5).1
      (fun k => by simp [resp500])
    rw [hv]
    simp
  · rcases (classifier_failure_containment resp500 (fun _ => 0) 5).2.1 CallOutcome.netErr with
      h | ⟨b, hb, _⟩
    · exact h
    · cases hb

/-- C6: on HTTP 429 the call retries with delay `2 ^ attempt + jitter`
(attempt counter starting at 0 per call), makes at most 5 attempts, and
exhausting them yields a null verdict, not an error. -/
theorem openai_backoff_retry (responses : Nat → CallOutcome) (jitter : Nat → ℚ)
    (hj : ∀ k, 0 ≤ jitter k ∧ jitter k ≤ 1) :
    (analyze_openai responses jitter 5).attempts ≤ 5 ∧
    (∀ k, (2 : ℚ) ^ k + jitter k ≤ 2 ^ k + 1) ∧
    ((∀ k, k < 5 → ∃ b, responses k = .resp 429 b) →
      analyze_openai responses jitter 5 =
        ⟨.ok none, (List.range 5).map (fun k => (2 : ℚ) ^ k + jitter k), 5⟩) ∧
    (∀ m b, m < 5 → (∀ k, k < m → ∃ c, responses k = .resp 429 c) →
      responses m = .resp 200 b →
      analyze_openai responses jitter 5 =
        ⟨.ok (some b), (List.range m).map (fun k => (2 : ℚ) ^ k + jitter k), m + 1⟩) := by
  have hzero : ∀ m : Nat,
      (List.range m).map (fun k => (2 : ℚ) ^ (0 + k) + jitter (0 + k)) =
        (List.range m).map (fun k => (2 : ℚ) ^ k + jitter k) := by
    intro m
    apply List.map_congr_left
    intro k _
    rw [Nat.zero_add]
  refine ⟨?_, ?_, ?_, ?_⟩
  · simpa using oaiLoop_attempts_le responses jitter 5 0 [] 0
  · intro k
    have := (hj k).2
    linarith
  · intro h429
    rw [analyze_openai, oai429_shift responses jitter 5 5 0 [] 0
      (fun k hk => by simpa using h429 k hk) (le_refl 5)]
    rw [List.nil_append, hzero]
    rfl
  · intro m b hm h429 h200
    rw [analyze_openai, oai429_shift responses jitter m 5 0 [] 0
      (fun k hk => by simpa using h429 k hk) (by omega)]
    rw [List.nil_append, hzero]
    obtain ⟨t, ht⟩ : ∃ t, 5 - m = t + 1 := ⟨5 - m - 1, by omega⟩
    rw [ht, Nat.zero_add, oaiLoop, h200]

/-- Witness for C6: three rate-limit responses then success — the call
succeeds after exactly three retries, with the specified delays. -/
theorem openai_backoff_retry_witness :
    analyze_openai respW jitW 5 =
      ⟨.ok (some 7), (List.range 3).map (fun k => (2 : ℚ) ^ k + jitW k), 4⟩ :=
  (openai_backoff_retry respW jitW
      (fun k => ⟨by norm_num [jitW], by norm_num [jitW]⟩)).2.2.2 3 7
    (by norm_num)
    (fun k hk => ⟨0, by simp [respW, hk]⟩)
    (by simp [respW])

/-! ### Claims on the annotation pipeline and the normalizer -/

/-- A successful read: the pipeline output, spelled out. -/
theorem analyze_unfold (oa pr : String → Option Nat) (limit bs : Nat) (input : List RawLine)
    (posts : List (RawPost × String)) (h : readPosts limit 0 input = .ok posts) :
    analyze_posts_batched oa pr limit bs input = .ok
      { results := (toBatches bs posts).flatten.map (analyzeStep oa pr)
        oaCalls := (toBatches bs posts).flatten.map (fun p => p.2)
        prCalls := (toBatches bs posts).flatten.map (fun p => p.2)
        batchSizes := (toBatches bs posts).map List.length } := by
  rw [analyze_posts_batched, h]
  simp only [← List.map_flatten]

theorem analyze_error (oa pr : String → Option Nat) (limit bs : Nat) (input : List RawLine)
    (h : readPosts limit 0 input = .error ()) :
    analyze_posts_batched oa pr limit bs input = .error () := by
  rw [analyze_posts_batched, h]

/-- C3 (counterexample): a single malformed line makes
`analyze_posts_batched` raise instead of skipping it. -/
theorem malformed_line_aborts_counterexample :
    analyze_posts_batched oaNone prNine 5 5 [RawLine.malformed] = .error () := rfl

/-- C3 (amended): `json.loads` is unguarded — a malformed line among the
first `limit` lines aborts the whole run with an error; it is not skipped
and no result is produced. -/
theorem malformed_line_aborts (oa pr : String → Option Nat) (limit bs : Nat)
    (pre rest : List RawLine) (hml : ∀ l ∈ pre, l ≠ RawLine.malformed)
    (hlen : pre.length < limit) :
    analyze_posts_batched oa pr limit bs (pre ++ RawLine.malformed :: rest) = .error () :=
  analyze_error oa pr limit bs _ (readPosts_malformed limit pre 0 rest hml (by omega))

/-- Witness for the amended C3 statement. -/
theorem malformed_line_aborts_witness :
    analyze_posts_batched oaNone prNine 2 5
      [RawLine.good ⟨1, 2, 3, "hi"⟩, RawLine.malformed] = .error () :=
  malformed_line_aborts oaNone prNine 2 5 [RawLine.good ⟨1, 2, 3, "hi"⟩] [] (by decide) (by decide)

/-- C7: for every result record written, the two verdict fields are exactly
the two classifiers' answers for that post's text, independently of each
other — and both classifiers were sent that text. -/
theorem classifiers_attempted_independently (oa pr : String → Option Nat) (limit bs : Nat)
    (input : List RawLine) (out : AnalysisOutput)
    (h : analyze_posts_batched oa pr limit bs input = .ok out) :
    out.oaCalls = out.results.map (fun r => r.text) ∧
    out.prCalls = out.results.map (fun r => r.text) ∧
    ∀ r ∈ out.results, r.openai = oa r.text ∧ r.perspective = pr r.text := by
  cases hread : readPosts limit 0 input with
  | error e =>
      cases e
      rw [analyze_error oa pr limit bs input hread] at h
      cases h
  | ok posts =>
      rw [analyze_unfold oa pr limit bs input posts hread] at h
      injection h with h
      subst h
      refine ⟨?_, ?_, ?_⟩
      · show _ = ((toBatches bs posts).flatten.map (analyzeStep oa pr)).map (fun r => r.text)
        rw [List.map_map]
        rfl
      · show _ = ((toBatches bs posts).flatten.map (analyzeStep oa pr)).map (fun r => r.text)
        rw [List.map_map]
        rfl
      · intro r hr
        obtain ⟨p, hp, rfl⟩ := List.mem_map.mp hr
        exact ⟨rfl, rfl⟩

/-- Witness for C7: with classifier A always failing and B succeeding, the
record still carries B's verdict next to A's null. -/
theorem classifiers_attempted_independently_witness :
    (⟨2, 1, 3, "hello", none, some 9⟩ : AnalysisRecord).openai = oaNone "hello" ∧
    (⟨2, 1, 3, "hello", none, some 9⟩ : AnalysisRecord).perspective = prNine "hello" :=
  (classifiers_attempted_independently oaNone prNine 10 5 [RawLine.good ⟨1, 2, 3, "hello"⟩]
      ⟨[⟨2, 1, 3, "hello", none, some 9⟩], ["hello"], ["hello"], [1]⟩ (by decide)).2.2
    ⟨2, 1, 3, "hello", none, some 9⟩ (by decide)

/-- C9: only the first `limit` lines matter; no empty text is ever sent to
either classifier; results keep the raw-stream order of the kept posts; and
the batches have size `batch_size` (except possibly the last, which is no
larger). -/
theorem analysis_limit_skip_order (oa pr : String → Option Nat) (limit bs : Nat)
    (input : List RawLine) (hbs : 0 < bs) :
    analyze_posts_batched oa pr limit bs input =
      analyze_posts_batched oa pr limit bs (input.take limit) ∧
    ∀ out, analyze_posts_batched oa pr limit bs input = .ok out →
      (∀ t ∈ out.oaCalls, t ≠ "") ∧ (∀ t ∈ out.prCalls, t ≠ "") ∧
      out.results.map (fun r => r.post_id) = (input.take limit).filterMap keptId ∧
      (∀ n ∈ out.batchSizes, n ≤ bs) ∧
      (∀ i, i + 1 < out.batchSizes.length → out.batchSizes[i]? = some bs) := by
  constructor
  · have ht := readPosts_take limit input 0
    rw [Nat.sub_zero] at ht
    rw [analyze_posts_batched, analyze_posts_batched, ht]
  · intro out h
    cases hread : readPosts limit 0 input with
    | error e =>
        cases e
        rw [analyze_error oa pr limit bs input hread] at h
        cases h
    | ok posts =>
        rw [analyze_unfold oa pr limit bs input posts hread] at h
        injection h with h
        subst h
        have hfl : (toBatches bs posts).flatten = posts :=
          toBatchesGo_flatten bs hbs posts.length posts (le_refl _)
        obtain ⟨hitems, hmap⟩ := readPosts_ok limit input 0 posts hread
        rw [Nat.sub_zero] at hmap
        refine ⟨?_, ?_, ?_, ?_, ?_⟩
        · intro t htc
          simp only [hfl] at htc
          obtain ⟨p, hp, rfl⟩ := List.mem_map.mp htc
          exact (hitems p hp).2
        · intro t htc
          simp only [hfl] at htc
          obtain ⟨p, hp, rfl⟩ := List.mem_map.mp htc
          exact (hitems p hp).2
        · show ((toBatches bs posts).flatten.map (analyzeStep oa pr)).map (fun r => r.post_id) = _
          rw [List.map_map, hfl, ← hmap]
          rfl
        · intro n hn
          simp only [List.mem_map] at hn
          obtain ⟨b, hb, rfl⟩ := hn
          exact toBatchesGo_sizes_le bs posts.length posts b hb
        · intro i hi
          simp only [List.length_map] at hi
          exact toBatchesGo_sizes_eq bs hbs posts.length posts i (le_refl _) hi

/-- Witness for C9 at a concrete 4-line stream with an empty-text line. -/
theorem analysis_limit_skip_order_witness :
    (analyze_posts_batched oaNone prNine 3 2
        [RawLine.good ⟨1, 1, 0, "a"⟩, RawLine.good ⟨1, 2, 0, "  "⟩,
          RawLine.good ⟨1, 3, 0, "b"⟩, RawLine.good ⟨1, 4, 0, "c"⟩] =
      analyze_posts_batched oaNone prNine 3 2
        ([RawLine.good ⟨1, 1, 0, "a"⟩, RawLine.good ⟨1, 2, 0, "  "⟩,
          RawLine.good ⟨1, 3, 0, "b"⟩, RawLine.good ⟨1, 4, 0, "c"⟩].take 3)) ∧
    (⟨[⟨1, 1, 0, "a", none, some 9⟩, ⟨3, 1, 0, "b", none, some 9⟩],
        ["a", "b"], ["a", "b"], [2]⟩ : AnalysisOutput).results.map (fun r => r.post_id) =
      ([RawLine.good ⟨1, 1, 0, "a"⟩, RawLine.good ⟨1, 2, 0, "  "⟩,
        RawLine.good ⟨1, 3, 0, "b"⟩, RawLine.good ⟨1, 4, 0, "c"⟩].take 3).filterMap keptId :=
  ⟨(analysis_limit_skip_order oaNone prNine 3 2 _ (by norm_num)).1,
   ((analysis_limit_skip_order oaNone prNine 3 2 _ (by norm_num)).2 _ (by decide)).2.2.1⟩

/-- C10: `limit` caps the number of result records only through the number
of lines read: the records written are exactly the kept (non-empty-text)
lines among the first `limit`, which can be fewer than `limit` even when
later lines hold analyzable posts. -/
theorem limit_bounds_lines_not_posts (oa pr : String → Option Nat) (limit bs : Nat)
    (input : List RawLine) (out : AnalysisOutput) (hbs : 0 < bs)
    (h : analyze_posts_batched oa pr limit bs input = .ok out) :
    out.results.length = (input.take limit).countP (fun l => (keptId l).isSome) ∧
    out.results.length ≤ limit := by
  cases hread : readPosts limit 0 input with
  | error e =>
      cases e
      rw [analyze_error oa pr limit bs input hread] at h
      cases h
  | ok posts =>
      rw [analyze_unfold oa pr limit bs input posts hread] at h
      injection h with h
      subst h
      have hfl : (toBatches bs posts).flatten = posts :=
        toBatchesGo_flatten bs hbs posts.length posts (le_refl _)
      obtain ⟨hitems, hmap⟩ := readPosts_ok limit input 0 posts hread
      rw [Nat.sub_zero] at hmap
      have hlen : posts.length = (input.take limit).countP (fun l => (keptId l).isSome) := by
        have h1 : posts.length = (posts.map (fun pr2 => pr2.1.post_id)).length := by
          rw [List.length_map]
        rw [h1, hmap, filterMap_length_countP]
      constructor
      · show ((toBatches bs posts).flatten.map (analyzeStep oa pr)).length = _
        rw [List.length_map, hfl, hlen]
      · show ((toBatches bs posts).flatten.map (analyzeStep oa pr)).length ≤ limit
        rw [List.length_map, hfl, hlen]
        calc (input.take limit).countP (fun l => (keptId l).isSome)
            ≤ (input.take limit).length := List.countP_le_length _
          _ ≤ limit := by rw [List.length_take]; omega

/-- Witness for C10: with `limit = 1` and an empty-text first line, no record
is written although a non-empty post sits just past the limit. -/
theorem limit_bounds_lines_not_posts_witness :
    (⟨[], [], [], []⟩ : AnalysisOutput).results.length =
      ([RawLine.good ⟨1, 1, 0, " "⟩, RawLine.good ⟨1, 2, 0, "x"⟩].take 1).countP
        (fun l => (keptId l).isSome) ∧
    ([RawLine.good ⟨1, 1, 0, " "⟩, RawLine.good ⟨1, 2, 0, "x"⟩].drop 1).countP
        (fun l => (keptId l).isSome) = 1 ∧
    (⟨[], [], [], []⟩ : AnalysisOutput).results.length = 0 :=
  ⟨(limit_bounds_lines_not_posts oaNone prNine 1 5
      [RawLine.good ⟨1, 1, 0, " "⟩, RawLine.good ⟨1, 2, 0, "x"⟩]
      ⟨[], [], [], []⟩ (by norm_num) (by decide)).1,
   by decide, by decide⟩

/-- C8: the normalizer is total on string-or-null input — `None` and `""`
both map to `""` — every occurrence of `"<br>"` becomes a newline (the scan
commutes with splitting at any occurrence), and the entities `"&gt;"` and
`"&quot;"` decode to `">"` and `"\""`, so `"&gt;&gt;123"` normalizes to
`">>123"`. -/
theorem clean_comment_normalizer :
    clean_comment none = "" ∧
    clean_comment (some "") = "" ∧
    (∀ a b : List Char,
      replBr (a ++ '<' :: 'b' :: 'r' :: '>' :: b) = replBr a ++ '\n' :: replBr b) ∧
    clean_comment (some "a<br>b<br>c") = "a\nb\nc" ∧
    clean_comment (some "&gt;&gt;123") = ">>123" ∧
    clean_comment (some "&quot;x&quot;") = "\"x\"" :=
  ⟨rfl, by decide, replBr_append_pat, by decide, by decide, by decide⟩
